import Mathlib

/-!
Verification development for the migration-progress resolution core of
`bin/migwatcher.py` (the MTV migration watcher script).

Modelling conventions:
* Python floats are modelled as exact rationals (`ℚ`); every numeric value a
  theorem evaluates is exactly representable in binary floating point, so the
  rational model agrees with the Python runtime on those inputs.
* A Python function that can raise is modelled as returning `Option`:
  `none` models the raised exception, `some v` a normal return of `v`.
* JSON-decoded dictionaries are modelled as structures whose fields are
  `Option`-valued where the Python code distinguishes a missing key
  (`dict.get` returning `None`) from a present value.
* Python `dict` iteration order (insertion order) is modelled with
  association lists that append new keys at the end and update existing
  keys in place.
* `float(s)` is modelled for plain decimal literals (optional sign, digits,
  at most one dot, no exponent/underscore/inf forms); every string any
  theorem below evaluates is of that shape, and the digit-and-dot strings
  produced by the capacity regex can only be of that shape.
-/

/-- Characters Python's `str.strip` / the regex class `\s` treat as whitespace. -/
def isPyWS (c : Char) : Bool :=
  c == ' ' || c == '\t' || c == '\n' || c == '\r' || c == '\x0b' || c == '\x0c'

/-- Python `str.strip()`. -/
def stripWS (s : String) : String :=
  String.mk (((s.data.dropWhile isPyWS).reverse.dropWhile isPyWS).reverse)

/-- ASCII letter, the regex class `[A-Za-z]`. -/
def isAsciiAlpha (c : Char) : Bool :=
  ('A' ≤ c && c ≤ 'Z') || ('a' ≤ c && c ≤ 'z')

/-- Character of the regex class `[0-9.]`. -/
def isDigitDot (c : Char) : Bool :=
  c.isDigit || c == '.'

/-- ASCII lower-casing, Python `str.lower()` on the letters that occur in unit suffixes. -/
def lowerChar (c : Char) : Char :=
  if 'A' ≤ c ∧ c ≤ 'Z' then Char.ofNat (c.toNat + 32) else c

/-- Lower-case a character list and repack it as a string. -/
def lowerStr (l : List Char) : String :=
  String.mk (l.map lowerChar)

/-- Numeric value of a digit run. -/
def natValQ (l : List Char) : ℚ :=
  ((l.foldl (fun a c => a * 10 + (c.toNat - 48)) 0 : ℕ) : ℚ)

/-- Python `float(s)` restricted to plain decimal literals: optional sign,
digits, at most one `.`, at least one digit; `none` models a raised
`ValueError`. -/
def pyFloatBody (cs : List Char) : Option ℚ :=
  let ip := cs.takeWhile Char.isDigit
  let r1 := cs.dropWhile Char.isDigit
  match r1 with
  | [] => if ip.isEmpty then none else some (natValQ ip)
  | '.' :: r2 =>
    let fp := r2.takeWhile Char.isDigit
    let r3 := r2.dropWhile Char.isDigit
    if r3.isEmpty && !(ip.isEmpty && fp.isEmpty) then
      some (natValQ ip + natValQ fp / (10 : ℚ) ^ fp.length)
    else none
  | _ => none

/-- Python `float(s)` (see `pyFloatBody`). -/
def pyFloat? (s : String) : Option ℚ :=
  match s.data with
  | '-' :: r => (pyFloatBody r).map (fun q => -q)
  | '+' :: r => pyFloatBody r
  | r => pyFloatBody r

/-- Python `s.rstrip("%")`: drop every trailing `%`. -/
def rstripPct (s : String) : String :=
  String.mk ((s.data.reverse.dropWhile (fun c => c == '%')).reverse)

/-- Does `n` start `h`? (List-level string matching used for Python's `in`.) -/
def headMatch : List Char → List Char → Bool
  | [], _ => true
  | _ :: _, [] => false
  | a :: as, b :: bs => a == b && headMatch as bs

/-- Does `n` occur somewhere inside `h`? -/
def subSearch (n : List Char) : List Char → Bool
  | [] => headMatch n []
  | b :: bs => headMatch n (b :: bs) || subSearch n bs

/-- Python `needle in hay` on strings. -/
def containsSub (needle hay : String) : Bool :=
  subSearch needle.data hay.data

/-- Input to `to_bytes`: `null` is Python `None` / a missing field, `num` a
JSON number already in bytes, `str` a capacity string. -/
inductive CapInput where
  | null : CapInput
  | num : ℚ → CapInput
  | str : String → CapInput
deriving DecidableEq

/-- The IEC and SI multiplier table of `to_bytes` (keys already lower-case). -/
def multTable : List (String × ℚ) :=
  [("b", 1), ("", 1),
   ("k", 1000), ("kb", 1000), ("ki", 1024), ("kib", 1024),
   ("m", 1000000), ("mb", 1000000), ("mi", 1024 ^ 2), ("mib", 1024 ^ 2),
   ("g", 1000000000), ("gb", 1000000000), ("gi", 1024 ^ 3), ("gib", 1024 ^ 3),
   ("t", 1000000000000), ("tb", 1000000000000), ("ti", 1024 ^ 4), ("tib", 1024 ^ 4),
   ("p", 1000000000000000), ("pb", 1000000000000000), ("pi", 1024 ^ 5), ("pib", 1024 ^ 5)]

/-- The regex `^\s*([0-9.]+)\s*([A-Za-z]+)?\s*$` of `to_bytes`: on success the
captured number run and (possibly empty) unit run.  The greedy character-class
scan is equivalent to the regex because the three classes are disjoint. -/
def capMatch (s : String) : Option (List Char × List Char) :=
  let cs := s.data.dropWhile isPyWS
  let digs := cs.takeWhile isDigitDot
  let r1 := cs.dropWhile isDigitDot
  if digs.isEmpty then none
  else
    let r2 := r1.dropWhile isPyWS
    let unit := r2.takeWhile isAsciiAlpha
    let r3 := (r2.dropWhile isAsciiAlpha).dropWhile isPyWS
    if r3.isEmpty then some (digs, unit) else none

/-- `to_bytes` from `bin/migwatcher.py` (lines 162-189).  `none` models the
`ValueError` that `float(m.group(1))` raises when the digit-and-dot run has
more than one dot or no digit; the unit multiplier lookup falls back to `1`
(`mult.get(u, 1)`). -/
def to_bytes : CapInput → Option ℚ
  | CapInput.null => some 0
  | CapInput.num x => some x
  | CapInput.str s =>
    match capMatch (stripWS s) with
    | none => some 0
    | some (digs, unit) =>
      match pyFloat? (String.mk digs) with
      | none => none
      | some n => some (n * ((multTable.lookup (lowerStr unit)).getD 1))

/-- Owner reference entry of a DataVolume's metadata; `none` models a missing key. -/
structure OwnerRef where
  kind? : Option String
  name? : Option String
deriving DecidableEq

/-- A DataVolume item as `bin/migwatcher.py` reads it.
* `ns?` — `metadata.namespace` (`none` = missing key).
* `name` — `metadata.name` with the `.get("name", "")` default.
* `labels` — `metadata.labels` as an association list of strings.
* `ownerRefs` — `metadata.ownerReferences` (missing/null list modelled as `[]`,
  matching the `or []` guard).
* `progress` — `status.progress`: `none` = key absent (the code then uses the
  default string `"0%"`), `some none` = key present with JSON `null`
  (`.rstrip` then raises), `some (some s)` = a string value.
* `reqStorage` — `spec.storage.resources.requests.storage`
  (`CapInput.null` = any level missing).
* `reqStorageAlt` — modelled from the spec: the secondary alternate capacity
  field path of §4.5 step 3; `migwatcher.py` reads only the primary path and
  ignores this field. -/
structure DV where
  ns? : Option String
  name : String
  labels : List (String × String)
  ownerRefs : List OwnerRef
  progress : Option (Option String)
  reqStorage : CapInput
  reqStorageAlt : CapInput
deriving DecidableEq

/-- Python `labels.get(k, "")`. -/
def labelD (labels : List (String × String)) (k : String) : String :=
  (labels.lookup k).getD ""

/-- `dv_selector_matches` from `bin/migwatcher.py` (lines 224-239).  Note the
first tier also requires a truthy `vmID` label (`labels.get("vmID") and
labels.get("vmName", "") == vm_name`); the sequential early-return chain is
modelled by `||`. -/
def dv_selector_matches (dv : DV) (vm_name : String) : Bool :=
  ((labelD dv.labels "vmID" != "") && (labelD dv.labels "vmName" == vm_name))
  || (labelD dv.labels "forklift.konveyor.io/vmName" == vm_name)
  || dv.ownerRefs.any (fun r => (r.kind? == some "VirtualMachine") && (r.name? == some vm_name))
  || ((vm_name != "") && containsSub vm_name dv.name)

/-- The candidate filter of `dv_progress_for_vm` (line 245): same namespace and
`dv_selector_matches`. -/
def dvCandidates (items : List DV) (target_ns vm_name : String) : List DV :=
  items.filter fun dv => (dv.ns? == some target_ns) && dv_selector_matches dv vm_name

/-- The percent parsing of `dv_progress_for_vm` (lines 254-259):
`st.get("progress", "0%").rstrip("%")` then `float` inside `try`.  The default
`"0%"` parses to `0`; an unparsable string is silently replaced by `0.0` by the
`except` arm; a present-but-null value makes `.rstrip` raise (`none`). -/
def pctOf (dv : DV) : Option ℚ :=
  match dv.progress with
  | none => some 0
  | some none => none
  | some (some s) => some ((pyFloat? (rstripPct s)).getD 0)

/-- One loop iteration of `dv_progress_for_vm` over a candidate, threading
`(total, copied, any_size)`; `none` propagates a raised exception. -/
def dvAccumStep (acc : ℚ × ℚ × Bool) (dv : DV) : Option (ℚ × ℚ × Bool) := do
  let pct ← pctOf dv
  let cap ← to_bytes dv.reqStorage
  if 0 < cap then
    pure (acc.1 + cap, acc.2.1 + cap * (pct / 100), true)
  else
    pure acc

/-- `dv_progress_for_vm` from `bin/migwatcher.py` (lines 241-279).  Returns
`some (percent, copiedBytes, totalBytes)` — the triple of the Python function,
with `(none, none, none)` for its `(None, None, None)` — or `none` when the
body raises. -/
def dv_progress_for_vm (items : List DV) (target_ns vm_name : String) :
    Option (Option ℚ × Option ℚ × Option ℚ) := do
  let cands := dvCandidates items target_ns vm_name
  if cands.isEmpty then
    pure (none, none, none)
  else
    let acc ← cands.foldlM dvAccumStep (0, 0, false)
    if acc.2.2 = false ∨ acc.1 ≤ 0 then
      pure (none, none, none)
    else
      pure (some (acc.2.1 / acc.1 * 100), some acc.2.1, some acc.1)

/-- A typed JSON scalar as found in a pipeline progress field; `isinstance(x, int)`
holds exactly for `fint`. -/
inductive PyField where
  | fint : ℤ → PyField
  | ffloat : ℚ → PyField
  | fstr : String → PyField
deriving DecidableEq

/-- The progress dictionary of a pipeline stage; each key may be absent. -/
structure StageProg where
  totalBytes : Option PyField
  total : Option PyField
  copiedBytes : Option PyField
  current : Option PyField
deriving DecidableEq

/-- A pipeline stage; `progress?` is `stage.get("progress") or {}` — `none`
models the falsy/missing case. -/
structure Stage where
  progress? : Option StageProg
deriving DecidableEq

/-- A VM status entry (`name` plus the ordered pipeline list). -/
structure VMStat where
  name : String
  pipeline : List Stage
deriving DecidableEq

/-- Primary field if present, otherwise the alternate
(`total = prog.get("totalBytes"); if total is None: total = prog.get("total")`). -/
def fieldOr (a b : Option PyField) : Option PyField :=
  match a with
  | some v => some v
  | none => b

/-- Resolved total of a stage: `totalBytes`, falling back to `total`. -/
def stageTotal (st : Stage) : Option PyField :=
  match st.progress? with
  | none => none
  | some p => fieldOr p.totalBytes p.total

/-- Resolved copied of a stage: `copiedBytes`, falling back to `current`. -/
def stageCopied (st : Stage) : Option PyField :=
  match st.progress? with
  | none => none
  | some p => fieldOr p.copiedBytes p.current

/-- The stage loop of `first_pipeline_progress` (lines 281-296). -/
def fppAux : List Stage → Option (ℤ × ℤ)
  | [] => none
  | st :: rest =>
    match stageTotal st, stageCopied st with
    | some (PyField.fint t), some (PyField.fint c) =>
      if 0 < t ∧ 0 ≤ c then some (c, t) else fppAux rest
    | _, _ => fppAux rest

/-- `first_pipeline_progress` from `bin/migwatcher.py` (lines 281-296):
the `(copiedBytes, totalBytes)` pair of the first usable stage. -/
def first_pipeline_progress (vm : VMStat) : Option (ℤ × ℤ) :=
  fppAux vm.pipeline

/-- The `ProgressEstimate` result type of the spec's Progress Aggregator. -/
inductive ProgressEstimate where
  | unavailable : ProgressEstimate
  | percentOnly : ℚ → ProgressEstimate
  | percentWithBytes : ℚ → ℚ → ℚ → ProgressEstimate
  | bytesOnly : ℤ → ℤ → ProgressEstimate
deriving DecidableEq

/-- The CDI branch of the renderers (lines 350-352 and 426-430): the
`dv_progress_for_vm` triple is displayed iff `total_b and total_b > 0`,
otherwise the VM shows no storage progress (`Unavailable`). -/
def cdiEstimate : Option ℚ × Option ℚ × Option ℚ → ProgressEstimate
  | (pct?, cop?, tot?) =>
    match tot? with
    | some t =>
      if 0 < t then ProgressEstimate.percentWithBytes (pct?.getD 0) (cop?.getD 0) t
      else ProgressEstimate.unavailable
    | none => ProgressEstimate.unavailable

/-- The per-VM fusion both renderers implement (`render_table` lines 344-352,
`render_pretty` lines 424-430): `first_pipeline_progress` first; only when it
yields nothing is `dv_progress_for_vm` consulted.  `none` models a raised
exception. -/
def resolve (vm : VMStat) (dvs : List DV) (target_ns vm_name : String) :
    Option ProgressEstimate :=
  match first_pipeline_progress vm with
  | some (c, t) => some (ProgressEstimate.bytesOnly c t)
  | none => (dv_progress_for_vm dvs target_ns vm_name).map cdiEstimate

/-- A record of the mixed migration/plan/provider collection, with exactly the
fields `bin/migwatcher.py` reads:
`kind`, `metadata.name`, `metadata.creationTimestamp`, `spec.plan.name`,
`spec.targetNamespace` and `status.vms` (missing list modelled as `[]`,
matching the `or []` guard). -/
structure Item where
  kind : String
  name? : Option String
  ts? : Option String
  planName? : Option String
  targetNamespace? : Option String
  vms : List VMStat
deriving DecidableEq

/-- Sort key used inside a plan group:
`x.get("metadata", {}).get("creationTimestamp", "")`. -/
def tsKey (it : Item) : String :=
  it.ts?.getD ""

/-- Sort key of the final plan-name sort:
`m.get("spec", {}).get("plan", {}).get("name", "")`. -/
def planKey (it : Item) : String :=
  it.planName?.getD ""

/-- The record filter of `latest_migrations_by_plan` (lines 206-214), returning
the grouping key: kind must be `Migration`, `spec.plan.name` must be truthy,
and a non-empty filter must contain it. -/
def migKeep (filter : List String) (it : Item) : Option String :=
  if it.kind = "Migration" then
    match it.planName? with
    | some p =>
      if p = "" then none
      else if filter = [] ∨ p ∈ filter then some p else none
    | none => none
  else none

/-- The candidate predicate the claims quantify over: `it` is a Migration
record of plan `p` that survives the filter. -/
def migCand (filter : List String) (p : String) (it : Item) : Prop :=
  it.kind = "Migration" ∧ it.planName? = some p ∧ p ≠ "" ∧ (filter = [] ∨ p ∈ filter)

/-- Python `by_plan.setdefault(plan_name, []).append(it)`: append to the
existing group in place, or add a new group at the end. -/
def setdefApp (acc : List (String × List Item)) (p : String) (it : Item) :
    List (String × List Item) :=
  match acc with
  | [] => [(p, [it])]
  | (q, l) :: rest =>
    if q = p then (q, l ++ [it]) :: rest else (q, l) :: setdefApp rest p it

/-- The grouping loop of `latest_migrations_by_plan`, in input order. -/
def byPlanAux (filter : List String) (items : List Item) (acc : List (String × List Item)) :
    List (String × List Item) :=
  match items with
  | [] => acc
  | it :: rest =>
    match migKeep filter it with
    | some p => byPlanAux filter rest (setdefApp acc p it)
    | none => byPlanAux filter rest acc

/-- Stable insertion (the earlier element goes before later elements with an
equal key), modelling Python's stable `sorted`. -/
def insK (key : Item → String) (x : Item) : List Item → List Item
  | [] => [x]
  | y :: ys => if key x ≤ key y then x :: y :: ys else y :: insK key x ys

/-- Stable insertion sort by a string key, modelling `sorted(lst, key=...)`. -/
def sortK (key : Item → String) : List Item → List Item
  | [] => []
  | x :: xs => insK key x (sortK key xs)

/-- `latest_migrations_by_plan` from `bin/migwatcher.py` (lines 203-222):
group by plan, take `sorted(lst, key=creationTimestamp)[-1]` per group, and
sort the result by plan name. -/
def latest_migrations_by_plan (items : List Item) (filter : List String) : List Item :=
  sortK planKey ((byPlanAux filter items []).filterMap fun pl => (sortK tsKey pl.2).getLast?)

/-- Python `m[name] = tgt` on the insertion-ordered dict: update in place or
append. -/
def assocSet (m : List (String × String)) (k v : String) : List (String × String) :=
  match m with
  | [] => [(k, v)]
  | (a, b) :: rest => if a = k then (a, v) :: rest else (a, b) :: assocSet rest k v

/-- `index_plans_target_ns` from `bin/migwatcher.py` (lines 192-201): one entry
per Plan record whose name and target namespace are both truthy. -/
def index_plans_target_ns (items : List Item) : List (String × String) :=
  items.foldl
    (fun m it =>
      if it.kind = "Plan" then
        match it.name?, it.targetNamespace? with
        | some n, some t => if n ≠ "" ∧ t ≠ "" then assocSet m n t else m
        | _, _ => m
      else m)
    []

/-- Python `a or b` for an optional string against a default: the first truthy
value. -/
def orTruthy (a : Option String) (b : String) : String :=
  match a with
  | some s => if s = "" then b else s
  | none => b

/-- The target-namespace resolution of the renderers (lines 333 and 387):
`plan_ns_map.get(plan) or m.get("spec", {}).get("targetNamespace") or ""`. -/
def targetNsOf (planNs : List (String × String)) (m : Item) : String :=
  orTruthy (planNs.lookup (planKey m)) (orTruthy m.targetNamespace? "")

/-- The core pipeline of one refresh tick, as composed by `main` and the
renderers: index plans, select the latest migration per plan, then resolve
the progress of every VM of every selected migration.  Display-only filtering
(phase, errors-only) is the renderer's concern and not part of the core. -/
def corePipeline (items : List Item) (dvs : List DV) (filter : List String) :
    List (Item × List (String × Option ProgressEstimate)) :=
  let planNs := index_plans_target_ns items
  (latest_migrations_by_plan items filter).map fun m =>
    (m, m.vms.map fun vm => (vm.name, resolve vm dvs (targetNsOf planNs m) vm.name))

/-- Modelled from the spec: `Matches` of §4.4 as the design states it — the
four tiers in priority order, tier 1 being the plain exact `vmName` label
match.  This is the matcher of the second, near-duplicate script of the
repository that is not under `src/`; the in-src `dv_selector_matches` guards
tier 1 with a truthy `vmID` label. -/
def specMatches (t : DV) (vm : String) : Bool :=
  (labelD t.labels "vmName" == vm)
  || (labelD t.labels "forklift.konveyor.io/vmName" == vm)
  || t.ownerRefs.any (fun r => (r.kind? == some "VirtualMachine") && (r.name? == some vm))
  || containsSub vm t.name

/-- Modelled from the spec: `FindForVM` of §4.4 — transfers in the target
namespace for which `Matches` holds. -/
def specCands (dvs : List DV) (ns vm : String) : List DV :=
  dvs.filter fun d => (d.ns? == some ns) && specMatches d vm

/-- Modelled from the spec: §4.5 Signal B step 2 — strip trailing `%` and
parse as float; an absent or unparsable value is absent (`none`), never
silently zero. -/
def specParsePct (p : Option (Option String)) : Option ℚ :=
  match p with
  | some (some s) => pyFloat? (rstripPct s)
  | _ => none

/-- Modelled from the spec: `ParseCapacity` of §4.1 — total, whitespace
tolerated, case-insensitive unit, unrecognized or malformed input yields `0`.
(The in-src `to_bytes` instead multiplies by `1` on an unknown unit and can
raise on a malformed number.) -/
def specParseCapacity : CapInput → ℚ
  | CapInput.null => 0
  | CapInput.num x => x
  | CapInput.str s =>
    match capMatch (stripWS s) with
    | none => 0
    | some (digs, unit) =>
      match pyFloat? (String.mk digs) with
      | none => 0
      | some n =>
        match multTable.lookup (lowerStr unit) with
        | some mv => n * mv
        | none => 0

/-- Modelled from the spec: §4.5 Signal B step 3 — the primary capacity field
path, falling back to the secondary alternate path when the primary is absent. -/
def specCapOf (d : DV) : ℚ :=
  specParseCapacity (match d.reqStorage with
    | CapInput.null => d.reqStorageAlt
    | c => c)

/-- Modelled from the spec: the parsed percentages of the candidates
(§4.5 Signal B steps 2 and 4-5). -/
def specPcts (cands : List DV) : List ℚ :=
  cands.filterMap fun d => specParsePct d.progress

/-- Modelled from the spec: one candidate's contribution to the running
`(totalBytes, copiedBytes)` weighted sums of §4.5 Signal B step 3 — only a
candidate with a parsed percentage and a positive capacity contributes. -/
def specStep (tc : ℚ × ℚ) (d : DV) : ℚ × ℚ :=
  match specParsePct d.progress with
  | none => tc
  | some pct =>
    if 0 < specCapOf d then (tc.1 + specCapOf d, tc.2 + specCapOf d * pct / 100)
    else tc

/-- Modelled from the spec: the running `(totalBytes, copiedBytes)` weighted
sums of §4.5 Signal B step 3. -/
def specAccum (cands : List DV) : ℚ × ℚ :=
  cands.foldl specStep (0, 0)

/-- Modelled from the spec: the arithmetic mean of the parsed percentages
(§4.5 Signal B step 5, explicitly not capacity-weighted). -/
def specAvg (cands : List DV) : ℚ :=
  (specPcts cands).sum / ((specPcts cands).length : ℚ)

/-- Modelled from the spec: `TransferProgress` of §4.5 Signal B — the
storage-transfer percentage signal of the second duplicated script that is not
under `src/`, as unified by §9: no candidates or no parsed percentage gives
`Unavailable`; otherwise the arithmetic-mean percentage, with byte totals when
any candidate contributed capacity and `PercentOnly` when none did. -/
def specTransferProgress (dvs : List DV) (ns vm : String) : ProgressEstimate :=
  let cands := specCands dvs ns vm
  if cands.isEmpty then ProgressEstimate.unavailable
  else if (specPcts cands).isEmpty then ProgressEstimate.unavailable
  else if 0 < (specAccum cands).1 then
    ProgressEstimate.percentWithBytes (specAvg cands) (specAccum cands).2 (specAccum cands).1
  else ProgressEstimate.percentOnly (specAvg cands)

/-- A transfer whose labels map `vmName` to `vmx` and nothing else: no `vmID`
label, no owner references, and a name (`abc`) sharing no substring with the
VM name. -/
def exC2dv : DV :=
  ⟨some "t", "abc", [("vmName", "vmx")], [], none, CapInput.null, CapInput.null⟩

/-- The same transfer with a truthy `vmID` label added. -/
def exC2dvID : DV :=
  ⟨some "t", "abc", [("vmID", "i-1"), ("vmName", "vmx")], [], none, CapInput.null, CapInput.null⟩

/-- Claim C2, counterexample: a transfer whose labels map `vmName` exactly to
the VM name but which carries no `vmID` label is NOT matched by
`dv_selector_matches` — tier 1 of the code also requires a truthy `vmID`
label, and no other tier fires here. -/
theorem dv_selector_matches_counterexample :
    dv_selector_matches exC2dv "vmx" = false := by
  rfl

/-- Claim C2 (amended): for every transfer whose labels map `vmName` to
exactly the VM name AND carry a non-empty `vmID` label, `dv_selector_matches`
returns true, regardless of the transfer's name, owner references or other
labels. -/
theorem dv_selector_matches_vmName_with_vmID (dv : DV) (vm : String)
    (h1 : labelD dv.labels "vmName" = vm) (h2 : labelD dv.labels "vmID" ≠ "") :
    dv_selector_matches dv vm = true := by
  have hb : (labelD dv.labels "vmID" != "") = true := by
    simpa [bne_iff_ne] using h2
  have hb2 : (labelD dv.labels "vmName" == vm) = true := by
    simpa [beq_iff_eq] using h1
  simp [dv_selector_matches, hb, hb2]

/-- Witness for the amended C2 theorem at a concrete transfer. -/
theorem dv_selector_matches_vmName_with_vmID_witness :
    dv_selector_matches exC2dvID "vmx" = true :=
  dv_selector_matches_vmName_with_vmID exC2dvID "vmx" (by decide) (by decide)

/-- Claim C6, counterexample: a number followed by an unrecognized unit suffix
is NOT mapped to `0` — `mult.get(u, 1)` falls back to multiplier `1`, so
`to_bytes("10xyz")` is `10`. -/
theorem to_bytes_unknown_unit_counterexample :
    to_bytes (CapInput.str "10xyz") = some 10 ∧ (10 : ℚ) ≠ 0 := by
  constructor
  · have h : to_bytes (CapInput.str "10xyz") = some (10 * 1) := rfl
    rw [h]; norm_num
  · norm_num

/-- Claim C6 (amended): `to_bytes` maps `"10Gi"` to `10 * 1024 ^ 3`, `"100GB"`
to `100 * 10 ^ 9`, `"garbage"` to `0`, passes numeric input through as bytes,
and maps every string the capacity regex rejects to `0`; a number followed by
an unrecognized unit suffix is instead multiplied by `1` (passed through as
bytes). -/
theorem to_bytes_amended :
    to_bytes (CapInput.str "10Gi") = some (10 * 1024 ^ 3)
  ∧ to_bytes (CapInput.str "100GB") = some (100 * 1000000000)
  ∧ to_bytes (CapInput.str "garbage") = some 0
  ∧ (∀ q : ℚ, to_bytes (CapInput.num q) = some q)
  ∧ (∀ s : String, capMatch (stripWS s) = none → to_bytes (CapInput.str s) = some 0)
  ∧ to_bytes (CapInput.str "10xyz") = some 10 := by
  refine ⟨by rfl, by rfl, by rfl, fun q => rfl, fun s h => ?_, ?_⟩
  · simp [to_bytes, h]
  · have hx : to_bytes (CapInput.str "10xyz") = some (10 * 1) := rfl
    rw [hx]; norm_num

/-- Witness for the amended C6 theorem: the regex-rejecting branch at a
concrete malformed string. -/
theorem to_bytes_amended_witness :
    to_bytes (CapInput.str "n/a") = some 0 :=
  to_bytes_amended.2.2.2.2.1 "n/a" (by rfl)

/-- A candidate DataVolume whose `status.progress` is present but JSON null:
`.rstrip("%")` is applied to `None` and raises `AttributeError`. -/
def exC8nullProg : DV :=
  ⟨some "t", "dv-a", [("vmID", "i"), ("vmName", "v")], [], some none,
   CapInput.null, CapInput.null⟩

/-- A candidate DataVolume whose requested storage is the malformed numeral
`"1.2.3"`: the capacity regex accepts it but `float` raises `ValueError`. -/
def exC8badCap : DV :=
  ⟨some "t", "dv-b", [("vmID", "i"), ("vmName", "v")], [], some (some "10%"),
   CapInput.str "1.2.3", CapInput.null⟩

/-- Claim C8 (code bug): the core functions are NOT total — `to_bytes` raises
`ValueError` on a numeral with two decimal points (the regex class `[0-9.]+`
admits it, `float` rejects it), and `dv_progress_for_vm` raises on a null
progress field (`.rstrip` sits outside the `try`) and on a malformed capacity
string of a candidate.  `none` is the model of the raised exception. -/
theorem core_raises_on_malformed :
    to_bytes (CapInput.str "1.2.3") = none
  ∧ dv_progress_for_vm [exC8nullProg] "t" "v" = none
  ∧ dv_progress_for_vm [exC8badCap] "t" "v" = none := by
  refine ⟨by rfl, by rfl, by rfl⟩

/-- A transfer at 50% of a 10Gi volume, associated to VM `v1` by its `vmName`
label. -/
def exC3a : DV :=
  ⟨some "t", "x1", [("vmName", "v1")], [], some (some "50%"), CapInput.str "10Gi", CapInput.null⟩

/-- A transfer at 25% of a 20Gi volume, associated to VM `v1` by its `vmName`
label. -/
def exC3b : DV :=
  ⟨some "t", "x2", [("vmName", "v1")], [], some (some "25%"), CapInput.str "20Gi", CapInput.null⟩

/-- Claim C3 (confirmed, spec-modelled): for a VM with exactly the two
transfers at 50% of 10Gi and 25% of 20Gi, `TransferProgress` returns
`PercentWithBytes` whose percent is the arithmetic mean `37.5` of the two
report values (not the capacity-weighted ratio `100/3`), whose copied bytes
are `10*1024^3*0.5 + 20*1024^3*0.25` and whose total is `30*1024^3`. -/
theorem specTransferProgress_two_volumes :
    specTransferProgress [exC3a, exC3b] "t" "v1" =
      ProgressEstimate.percentWithBytes 37.5
        (10 * 1024 ^ 3 * 0.5 + 20 * 1024 ^ 3 * 0.25) (30 * 1024 ^ 3) := by
  have hcands : specCands [exC3a, exC3b] "t" "v1" = [exC3a, exC3b] := rfl
  have hpa : specParsePct exC3a.progress = some 50 := rfl
  have hpb : specParsePct exC3b.progress = some 25 := rfl
  have hca : specCapOf exC3a = 10 * 1024 ^ 3 := rfl
  have hcb : specCapOf exC3b = 20 * 1024 ^ 3 := rfl
  simp only [specTransferProgress, hcands, specPcts, List.filterMap_cons, List.filterMap_nil,
    hpa, hpb, specAccum, specStep, List.foldl_cons, List.foldl_nil, specAvg, hca, hcb]
  norm_num

/-- A VM status with one pipeline stage carrying integer progress
`copiedBytes=500, totalBytes=1000`. -/
def exC1vm : VMStat :=
  ⟨"v1", [⟨some ⟨some (PyField.fint 1000), none, some (PyField.fint 500), none⟩⟩]⟩

/-- A DataVolume the in-src matcher associates to `v1` (truthy `vmID` plus
exact `vmName`), at 50% of 10Gi. -/
def exC1dv : DV :=
  ⟨some "t", "x1", [("vmID", "i"), ("vmName", "v1")], [], some (some "50%"),
   CapInput.str "10Gi", CapInput.null⟩

/-- Claim C1, counterexample: at this input the storage-transfer signal is
available (`dv_progress_for_vm` yields a positive total, so its estimate is
`PercentWithBytes`, not `Unavailable`), yet the fused result is the pipeline
signal wrapped as `BytesOnly` — the code prefers Signal A, not Signal B. -/
theorem resolve_prefers_pipeline_counterexample :
    dv_progress_for_vm [exC1dv] "t" "v1" = some (some 50, some 5368709120, some 10737418240)
  ∧ cdiEstimate (some 50, some 5368709120, some 10737418240) =
      ProgressEstimate.percentWithBytes 50 5368709120 10737418240
  ∧ resolve exC1vm [exC1dv] "t" "v1" = some (ProgressEstimate.bytesOnly 500 1000) := by
  have hcands : dvCandidates [exC1dv] "t" "v1" = [exC1dv] := rfl
  have hp : pctOf exC1dv = some 50 := rfl
  have hc : to_bytes exC1dv.reqStorage = some (10 * 1024 ^ 3) := rfl
  refine ⟨?_, by rfl, by rfl⟩
  simp only [dv_progress_for_vm, hcands, List.foldlM_cons, List.foldlM_nil, dvAccumStep,
    hp, hc]
  norm_num

/-- Claim C1 (amended): `resolve` prefers Signal A — whenever
`first_pipeline_progress` yields a pair it is returned wrapped as `BytesOnly`;
the storage-transfer signal is consulted only when the pipeline yields
nothing, and when the pipeline yields nothing and the transfer signal reports
no data the result is `Unavailable`. -/
theorem resolve_pipeline_first (vm : VMStat) (dvs : List DV) (ns nm : String) :
    (∀ c t : ℤ, first_pipeline_progress vm = some (c, t) →
      resolve vm dvs ns nm = some (ProgressEstimate.bytesOnly c t))
  ∧ (first_pipeline_progress vm = none →
      ∀ r, dv_progress_for_vm dvs ns nm = some r →
        resolve vm dvs ns nm = some (cdiEstimate r))
  ∧ (first_pipeline_progress vm = none →
      dv_progress_for_vm dvs ns nm = some (none, none, none) →
        resolve vm dvs ns nm = some ProgressEstimate.unavailable) := by
  refine ⟨fun c t h => ?_, fun h r hr => ?_, fun h hr => ?_⟩
  · simp [resolve, h]
  · simp [resolve, h, hr]
  · simp [resolve, h, hr, cdiEstimate]

/-- Witness for the amended C1 theorem at the counterexample input. -/
theorem resolve_pipeline_first_witness :
    resolve exC1vm [exC1dv] "t" "v1" = some (ProgressEstimate.bytesOnly 500 1000) :=
  (resolve_pipeline_first exC1vm [exC1dv] "t" "v1").1 500 1000 (by rfl)

/-- Claim C9 (confirmed): the core pipeline — plan indexing, migration
selection, target-namespace resolution, volume association and progress
aggregation — is a pure function of the snapshot and parameters: two runs on
equal snapshots and equal parameters produce equal output. -/
theorem corePipeline_deterministic (items1 items2 : List Item) (dvs1 dvs2 : List DV)
    (f1 f2 : List String) (hi : items1 = items2) (hd : dvs1 = dvs2) (hf : f1 = f2) :
    corePipeline items1 dvs1 f1 = corePipeline items2 dvs2 f2 := by
  subst hi
  subst hd
  subst hf
  rfl

/-- A Migration record of plan `p` carrying one VM, used as a concrete
pipeline snapshot. -/
def exC9mig : Item :=
  ⟨"Migration", some "migA", some "2024-01-01T00:00:00Z", some "p", some "t", [exC1vm]⟩

/-- Witness for the C9 theorem at a concrete snapshot. -/
theorem corePipeline_deterministic_witness :
    corePipeline [exC9mig] [exC1dv] [] = corePipeline [exC9mig] [exC1dv] [] :=
  corePipeline_deterministic [exC9mig] [exC9mig] [exC1dv] [exC1dv] [] [] rfl rfl rfl

/-- Soundness of the stage loop: a returned pair comes from a stage of the
list whose resolved total and copied fields are both integer-typed, with a
positive total and non-negative copied value. -/
theorem fppAux_sound (l : List Stage) :
    ∀ c t : ℤ, fppAux l = some (c, t) →
      0 ≤ c ∧ 0 < t ∧ ∃ st, st ∈ l ∧
        stageTotal st = some (PyField.fint t) ∧ stageCopied st = some (PyField.fint c) := by
  induction l with
  | nil => intro c t h; simp [fppAux] at h
  | cons st rest ih =>
    intro c t h
    rcases hT : stageTotal st with _ | ft
    · simp only [fppAux, hT] at h
      obtain ⟨h1, h2, st', hm, hb⟩ := ih c t h
      exact ⟨h1, h2, st', List.mem_cons_of_mem _ hm, hb⟩
    · rcases ft with n | q | s
      · rcases hC : stageCopied st with _ | fc
        · simp only [fppAux, hT, hC] at h
          obtain ⟨h1, h2, st', hm, hb⟩ := ih c t h
          exact ⟨h1, h2, st', List.mem_cons_of_mem _ hm, hb⟩
        · rcases fc with m | q' | s'
          · simp only [fppAux, hT, hC] at h
            by_cases hcond : 0 < n ∧ 0 ≤ m
            · rw [if_pos hcond] at h
              obtain ⟨hc1, ht1⟩ := Prod.mk.injEq .. ▸ Option.some.injEq .. ▸ h
              · refine ⟨?_, ?_, st, List.mem_cons_self .., ?_, ?_⟩ <;>
                  simp_all
            · rw [if_neg hcond] at h
              obtain ⟨h1, h2, st', hm, hb⟩ := ih c t h
              exact ⟨h1, h2, st', List.mem_cons_of_mem _ hm, hb⟩
          · simp only [fppAux, hT, hC] at h
            obtain ⟨h1, h2, st', hm, hb⟩ := ih c t h
            exact ⟨h1, h2, st', List.mem_cons_of_mem _ hm, hb⟩
          · simp only [fppAux, hT, hC] at h
            obtain ⟨h1, h2, st', hm, hb⟩ := ih c t h
            exact ⟨h1, h2, st', List.mem_cons_of_mem _ hm, hb⟩
      · simp only [fppAux, hT] at h
        obtain ⟨h1, h2, st', hm, hb⟩ := ih c t h
        exact ⟨h1, h2, st', List.mem_cons_of_mem _ hm, hb⟩
      · simp only [fppAux, hT] at h
        obtain ⟨h1, h2, st', hm, hb⟩ := ih c t h
        exact ⟨h1, h2, st', List.mem_cons_of_mem _ hm, hb⟩

/-- Claim C10 (confirmed): `first_pipeline_progress` returns a pair only from
a stage whose resolved byte fields are both integer-typed (with positive
total and non-negative copied); a stage whose resolved total or copied is not
an `int` is skipped regardless of its value; and each field consults its
alternate name (`total` for `totalBytes`, `current` for `copiedBytes`)
exactly when the primary is absent. -/
theorem first_pipeline_progress_int_only (vm : VMStat) :
    (∀ c t : ℤ, first_pipeline_progress vm = some (c, t) →
      0 ≤ c ∧ 0 < t ∧ ∃ st, st ∈ vm.pipeline ∧
        stageTotal st = some (PyField.fint t) ∧ stageCopied st = some (PyField.fint c))
  ∧ (∀ (st : Stage) (rest : List Stage),
      ((∀ n : ℤ, stageTotal st ≠ some (PyField.fint n)) ∨
       (∀ n : ℤ, stageCopied st ≠ some (PyField.fint n))) →
      fppAux (st :: rest) = fppAux rest)
  ∧ (∀ p : StageProg,
      (p.totalBytes = none → stageTotal ⟨some p⟩ = p.total)
      ∧ (∀ v, p.totalBytes = some v → stageTotal ⟨some p⟩ = some v)
      ∧ (p.copiedBytes = none → stageCopied ⟨some p⟩ = p.current)
      ∧ (∀ v, p.copiedBytes = some v → stageCopied ⟨some p⟩ = some v)) := by
  refine ⟨fun c t h => fppAux_sound vm.pipeline c t h, fun st rest hd => ?_, fun p => ?_⟩
  · rcases hT : stageTotal st with _ | ft
    · simp only [fppAux, hT]
    · rcases ft with n | q | s
      · rcases hC : stageCopied st with _ | fc
        · simp only [fppAux, hT, hC]
        · rcases fc with m | q' | s'
          · rcases hd with hd | hd
            · exact absurd hT (hd n)
            · exact absurd hC (hd m)
          · simp only [fppAux, hT, hC]
          · simp only [fppAux, hT, hC]
      · simp only [fppAux, hT]
      · simp only [fppAux, hT]
  · exact ⟨fun h => by simp [stageTotal, fieldOr, h],
      fun v h => by simp [stageTotal, fieldOr, h],
      fun h => by simp [stageCopied, fieldOr, h],
      fun v h => by simp [stageCopied, fieldOr, h]⟩

/-- A stage whose `totalBytes` is a (positive) float: `isinstance(total, int)`
fails, so the stage is skipped. -/
def exStFloat : Stage :=
  ⟨some ⟨some (PyField.ffloat 1000), none, some (PyField.fint 500), none⟩⟩

/-- A stage carrying integer progress only under the alternate field names. -/
def exStAlt : Stage :=
  ⟨some ⟨none, some (PyField.fint 1000), none, some (PyField.fint 500)⟩⟩

/-- Witness for the C10 theorem: the float-totalled stage is skipped. -/
theorem first_pipeline_progress_int_only_witness :
    fppAux [exStFloat, exStAlt] = fppAux [exStAlt] :=
  (first_pipeline_progress_int_only ⟨"v", []⟩).2.1 exStFloat [exStAlt]
    (Or.inl (fun n hn => by simp [exStFloat, stageTotal, fieldOr] at hn))

/-- A fold whose step leaves the accumulator unchanged on every list element
returns its initial value. -/
theorem foldl_specStep_noop (l : List DV) :
    ∀ init : ℚ × ℚ, (∀ d ∈ l, ∀ tc : ℚ × ℚ, specStep tc d = tc) →
      l.foldl specStep init = init := by
  induction l with
  | nil => intro init _; rfl
  | cons d ds ih =>
    intro init h
    rw [List.foldl_cons, h d (List.mem_cons_self ..), ih init (fun e he => h e (List.mem_cons_of_mem _ he))]

/-- Claim C4 (confirmed, spec-modelled): when the candidates yield at least
one parsed percentage but no candidate with a parsed percentage has a positive
capacity, `TransferProgress` returns `PercentOnly` of the average percentage
rather than `Unavailable`. -/
theorem specTransferProgress_percent_only (dvs : List DV) (ns vm : String)
    (hp : specPcts (specCands dvs ns vm) ≠ [])
    (hc : ∀ d ∈ specCands dvs ns vm, specParsePct d.progress ≠ none → ¬ 0 < specCapOf d) :
    specTransferProgress dvs ns vm = ProgressEstimate.percentOnly (specAvg (specCands dvs ns vm)) := by
  have hstep : ∀ d ∈ specCands dvs ns vm, ∀ tc : ℚ × ℚ, specStep tc d = tc := by
    intro d hd tc
    rcases hpd : specParsePct d.progress with _ | pct
    · simp [specStep, hpd]
    · have := hc d hd (by simp [hpd])
      simp [specStep, hpd, this]
  have hacc : specAccum (specCands dvs ns vm) = (0, 0) :=
    foldl_specStep_noop _ _ hstep
  rcases hcl : specCands dvs ns vm with _ | ⟨d, ds⟩
  · rw [hcl] at hp
    simp [specPcts] at hp
  · rw [hcl] at hp hacc
    simp only [specTransferProgress, hcl, List.isEmpty_cons, Bool.false_eq_true, if_false,
      hacc]
    rw [if_neg (fun hh => hp (List.isEmpty_iff.mp hh)), if_neg (lt_irrefl 0)]

/-- A transfer reporting 50% with no capacity information anywhere. -/
def exC4dv : DV :=
  ⟨some "t", "x1", [("vmName", "v")], [], some (some "50%"), CapInput.null, CapInput.null⟩

/-- Witness for the C4 theorem: one capacity-less candidate at 50% yields
`PercentOnly 50`. -/
theorem specTransferProgress_percent_only_witness :
    specTransferProgress [exC4dv] "t" "v" = ProgressEstimate.percentOnly 50 := by
  have h := specTransferProgress_percent_only [exC4dv] "t" "v"
    (by
      have : specPcts (specCands [exC4dv] "t" "v") = [50] := rfl
      simp [this])
    (by
      intro d hd _
      have hdd : d = exC4dv := by
        have : specCands [exC4dv] "t" "v" = [exC4dv] := rfl
        rw [this] at hd
        simpa using hd
      subst hdd
      rw [show specCapOf exC4dv = 0 from rfl]
      exact lt_irrefl 0)
  rw [h]
  have hv : specAvg (specCands [exC4dv] "t" "v") = 50 := by
    rw [show specCands [exC4dv] "t" "v" = [exC4dv] from rfl]
    rw [specAvg, show specPcts [exC4dv] = [50] from rfl]
    norm_num
  rw [hv]

/-- Claim C5 (confirmed, spec-modelled): a transfer whose progress percentage
is unparsable or absent contributes nothing to `TransferProgress` — appending
such a transfer to the collection never changes the result: it is excluded
from the percentage average and from the byte sums, rather than being counted
as zero percent. -/
theorem specTransferProgress_unparsable_noop (dvs : List DV) (d : DV) (ns vm : String)
    (h : specParsePct d.progress = none) :
    specTransferProgress (dvs ++ [d]) ns vm = specTransferProgress dvs ns vm := by
  have hca : specCands (dvs ++ [d]) ns vm = specCands dvs ns vm ++ specCands [d] ns vm := by
    simp [specCands]
  by_cases hm : ((d.ns? == some ns) && specMatches d vm) = true
  · have hc1 : specCands [d] ns vm = [d] := by
      simp [specCands, List.filter, hm]
    rw [hc1] at hca
    have hpcts : specPcts (specCands dvs ns vm ++ [d]) = specPcts (specCands dvs ns vm) := by
      simp [specPcts, List.filterMap_append, h]
    have hacc : specAccum (specCands dvs ns vm ++ [d]) = specAccum (specCands dvs ns vm) := by
      rw [specAccum, specAccum, List.foldl_append]
      simp [specStep, h]
    have havg : specAvg (specCands dvs ns vm ++ [d]) = specAvg (specCands dvs ns vm) := by
      rw [specAvg, specAvg, hpcts]
    have h1 : ((specCands dvs ns vm) ++ [d]).isEmpty = false := by
      simp
    simp only [specTransferProgress, hca, h1, Bool.false_eq_true, if_false, hpcts, hacc, havg]
    cases hcl : specCands dvs ns vm with
    | nil => simp [specPcts]
    | cons e es => simp only [List.isEmpty_cons, Bool.false_eq_true, if_false]
  · have hc1 : specCands [d] ns vm = [] := by
      simp only [specCands, List.filter]
      rw [Bool.not_eq_true] at hm
      simp [hm]
    rw [hc1, List.append_nil] at hca
    simp only [specTransferProgress, hca]

/-- A transfer associated to `v1` whose progress string `"pending"` is not a
number. -/
def exC5bad : DV :=
  ⟨some "t", "bad1", [("vmName", "v1")], [], some (some "pending"),
   CapInput.str "10Gi", CapInput.null⟩

/-- Witness for the C5 theorem: appending the unparsable-progress transfer to
the C3 collection leaves the result unchanged. -/
theorem specTransferProgress_unparsable_noop_witness :
    specTransferProgress [exC3a, exC5bad] "t" "v1" = specTransferProgress [exC3a] "t" "v1" :=
  specTransferProgress_unparsable_noop [exC3a] exC5bad "t" "v1" (by rfl)

/-- Inserting into a list is a permutation of consing. -/
theorem perm_insK (key : Item → String) (x : Item) (l : List Item) :
    List.Perm (insK key x l) (x :: l) := by
  induction l with
  | nil => exact List.Perm.refl _
  | cons y ys ih =>
    rw [insK]
    split
    · exact List.Perm.refl _
    · exact (List.Perm.cons y ih).trans (List.Perm.swap x y ys)

/-- The insertion sort is a permutation of its input. -/
theorem perm_sortK (key : Item → String) (l : List Item) :
    List.Perm (sortK key l) l := by
  induction l with
  | nil => exact List.Perm.refl _
  | cons x xs ih =>
    rw [sortK]
    exact (perm_insK key x (sortK key xs)).trans (List.Perm.cons x ih)

/-- Insertion preserves sortedness by the key. -/
theorem sorted_insK (key : Item → String) (x : Item) (l : List Item)
    (h : l.Pairwise (fun a b => key a ≤ key b)) :
    (insK key x l).Pairwise (fun a b => key a ≤ key b) := by
  induction l with
  | nil => simp [insK]
  | cons y ys ih =>
    rw [insK]
    rcases h with - | ⟨hy, hys⟩
    split
    · rename_i hle
      refine List.Pairwise.cons ?_ (List.Pairwise.cons hy hys)
      intro b hb
      rcases List.mem_cons.mp hb with rfl | hb
      · exact hle
      · exact le_trans hle (hy b hb)
    · rename_i hn
      have hyx : key y ≤ key x := le_of_not_le hn
      refine List.Pairwise.cons ?_ (ih hys)
      intro b hb
      rcases List.mem_cons.mp ((perm_insK key x ys).mem_iff.mp hb) with rfl | hb
      · exact hyx
      · exact hy b hb

/-- The insertion sort sorts by the key. -/
theorem sorted_sortK (key : Item → String) (l : List Item) :
    (sortK key l).Pairwise (fun a b => key a ≤ key b) := by
  induction l with
  | nil => exact List.Pairwise.nil
  | cons x xs ih => exact sorted_insK key x (sortK key xs) ih

/-- In a key-sorted list, the last element has the maximal key. -/
theorem getLast_key_max (key : Item → String) :
    ∀ l : List Item, l.Pairwise (fun a b => key a ≤ key b) →
      ∀ m, l.getLast? = some m → ∀ a ∈ l, key a ≤ key m := by
  intro l
  induction l with
  | nil => intro _ m hm; simp at hm
  | cons x xs ih =>
    intro h m hm a ha
    rcases h with - | ⟨hx, hxs⟩
    cases xs with
    | nil =>
      simp only [List.getLast?_singleton, Option.some.injEq] at hm
      rcases List.mem_singleton.mp ha with rfl
      rw [hm]
    | cons y ys =>
      rw [List.getLast?_cons_cons] at hm
      have hmem : m ∈ y :: ys := List.mem_of_getLast?_eq_some hm
      rcases List.mem_cons.mp ha with rfl | ha
      · exact hx m hmem
      · exact ih hxs m hm a ha

/-- The record filter returns the plan name exactly on filter-surviving
Migration records with a truthy plan reference. -/
theorem migKeep_eq_some (filter : List String) (p : String) (it : Item) :
    migKeep filter it = some p ↔ migCand filter p it := by
  constructor
  · intro h
    by_cases hk : it.kind = "Migration"
    · rcases hq : it.planName? with - | q
      · simp [migKeep, hk, hq] at h
      · by_cases h0 : q = ""
        · simp [migKeep, hk, hq, h0] at h
        · by_cases hf : filter = [] ∨ q ∈ filter
          · have hqp : q = p := by simpa [migKeep, hk, hq, h0, hf] using h
            subst hqp
            exact ⟨hk, hq, h0, hf⟩
          · simp [migKeep, hk, hq, h0, hf] at h
    · simp [migKeep, hk] at h
  · rintro ⟨h1, h2, h3, h4⟩
    simp [migKeep, h1, h2, h3, h4]

/-- Every key of `setdefApp acc p it` is `p` or an existing key of `acc`. -/
theorem setdefApp_key_mem :
    ∀ (acc : List (String × List Item)) (p : String) (it : Item) (pl : String × List Item),
      pl ∈ setdefApp acc p it → pl.1 = p ∨ ∃ q ∈ acc, pl.1 = q.1 := by
  intro acc
  induction acc with
  | nil =>
    intro p it pl hm
    rcases List.mem_singleton.mp hm with rfl
    exact Or.inl rfl
  | cons a rest ih =>
    intro p it pl hm
    obtain ⟨q, l⟩ := a
    rw [setdefApp] at hm
    split at hm
    · rcases List.mem_cons.mp hm with rfl | hm
      · exact Or.inr ⟨(q, l), List.mem_cons_self .., rfl⟩
      · exact Or.inr ⟨pl, List.mem_cons_of_mem _ hm, rfl⟩
    · rcases List.mem_cons.mp hm with rfl | hm
      · exact Or.inr ⟨(q, l), List.mem_cons_self .., rfl⟩
      · rcases ih p it pl hm with h | ⟨q', hq', he⟩
        · exact Or.inl h
        · exact Or.inr ⟨q', List.mem_cons_of_mem _ hq', he⟩

/-- `setdefApp` preserves key distinctness. -/
theorem setdefApp_pairwise :
    ∀ (acc : List (String × List Item)) (p : String) (it : Item),
      acc.Pairwise (fun a b => a.1 ≠ b.1) →
      (setdefApp acc p it).Pairwise (fun a b => a.1 ≠ b.1) := by
  intro acc
  induction acc with
  | nil => intro p it _; simp [setdefApp]
  | cons a rest ih =>
    intro p it h
    obtain ⟨q, l⟩ := a
    rcases h with - | ⟨hq, hrest⟩
    rw [setdefApp]
    split
    · exact List.Pairwise.cons hq hrest
    · rename_i hne
      refine List.Pairwise.cons ?_ (ih p it hrest)
      intro b hb
      rcases setdefApp_key_mem rest p it b hb with h | ⟨q', hq', he⟩
      · rw [h]; exact hne
      · rw [he]; exact hq q' hq'

/-- Where the members of `setdefApp acc p it` come from: an untouched group of
`acc`, or the group of `p` extended with `it` at the end. -/
theorem setdefApp_elem :
    ∀ (acc : List (String × List Item)) (p : String) (it : Item) (pl : String × List Item),
      pl ∈ setdefApp acc p it →
      pl ∈ acc ∨ (pl.1 = p ∧ ∃ l0, pl.2 = l0 ++ [it] ∧ ((p, l0) ∈ acc ∨ l0 = [])) := by
  intro acc
  induction acc with
  | nil =>
    intro p it pl hm
    rcases List.mem_singleton.mp hm with rfl
    exact Or.inr ⟨rfl, [], rfl, Or.inr rfl⟩
  | cons a rest ih =>
    intro p it pl hm
    obtain ⟨q, l⟩ := a
    rw [setdefApp] at hm
    split at hm
    · rename_i heq
      rcases List.mem_cons.mp hm with rfl | hm
      · exact Or.inr ⟨heq, l, rfl, Or.inl (heq ▸ List.mem_cons_self ..)⟩
      · exact Or.inl (List.mem_cons_of_mem _ hm)
    · rcases List.mem_cons.mp hm with rfl | hm
      · exact Or.inl (List.mem_cons_self ..)
      · rcases ih p it pl hm with h | ⟨h1, l0, h2, h3⟩
        · exact Or.inl (List.mem_cons_of_mem _ h)
        · refine Or.inr ⟨h1, l0, h2, ?_⟩
          rcases h3 with h3 | h3
          · exact Or.inl (List.mem_cons_of_mem _ h3)
          · exact Or.inr h3

/-- Existing group members survive `setdefApp` under the same key. -/
theorem setdefApp_sub :
    ∀ (acc : List (String × List Item)) (p : String) (it : Item) (pl0 : String × List Item),
      pl0 ∈ acc →
      ∃ pl ∈ setdefApp acc p it, pl.1 = pl0.1 ∧ ∀ x ∈ pl0.2, x ∈ pl.2 := by
  intro acc
  induction acc with
  | nil => intro p it pl0 hm; simp at hm
  | cons a rest ih =>
    intro p it pl0 hm
    obtain ⟨q, l⟩ := a
    rw [setdefApp]
    split
    · rename_i heq
      rcases List.mem_cons.mp hm with rfl | hm
      · exact ⟨(q, l ++ [it]), List.mem_cons_self .., rfl, fun x hx => List.mem_append_left _ hx⟩
      · exact ⟨pl0, List.mem_cons_of_mem _ hm, rfl, fun x hx => hx⟩
    · rcases List.mem_cons.mp hm with rfl | hm
      · exact ⟨(q, l), List.mem_cons_self .., rfl, fun x hx => hx⟩
      · obtain ⟨pl, hpl, he, hsub⟩ := ih p it pl0 hm
        exact ⟨pl, List.mem_cons_of_mem _ hpl, he, hsub⟩

/-- `setdefApp` puts `it` into a group keyed `p`. -/
theorem setdefApp_self :
    ∀ (acc : List (String × List Item)) (p : String) (it : Item),
      ∃ pl ∈ setdefApp acc p it, pl.1 = p ∧ it ∈ pl.2 := by
  intro acc
  induction acc with
  | nil =>
    intro p it
    exact ⟨(p, [it]), List.mem_singleton_self _, rfl, List.mem_singleton_self _⟩
  | cons a rest ih =>
    intro p it
    obtain ⟨q, l⟩ := a
    rw [setdefApp]
    split
    · rename_i heq
      exact ⟨(q, l ++ [it]), List.mem_cons_self .., heq,
        List.mem_append_right _ (List.mem_singleton_self _)⟩
    · obtain ⟨pl, hpl, he, hx⟩ := ih p it
      exact ⟨pl, List.mem_cons_of_mem _ hpl, he, hx⟩

/-- The grouping loop preserves key distinctness. -/
theorem byPlanAux_pairwise (filter : List String) :
    ∀ (items : List Item) (acc : List (String × List Item)),
      acc.Pairwise (fun a b => a.1 ≠ b.1) →
      (byPlanAux filter items acc).Pairwise (fun a b => a.1 ≠ b.1) := by
  intro items
  induction items with
  | nil => intro acc h; exact h
  | cons it rest ih =>
    intro acc h
    rw [byPlanAux]
    cases hk : migKeep filter it with
    | none => exact ih acc h
    | some p => exact ih (setdefApp acc p it) (setdefApp_pairwise acc p it h)

/-- Soundness of the grouping loop: every group is non-empty and holds only
records that come from the accumulator invariant `P` or from the processed
items, and all of them are candidates of the group's plan. -/
theorem byPlanAux_sound (filter : List String) :
    ∀ (items : List Item) (P : Item → Prop) (acc : List (String × List Item)),
      (∀ pl ∈ acc, pl.2 ≠ [] ∧ ∀ x ∈ pl.2, P x ∧ migCand filter pl.1 x) →
      ∀ pl ∈ byPlanAux filter items acc,
        pl.2 ≠ [] ∧ ∀ x ∈ pl.2, (P x ∨ x ∈ items) ∧ migCand filter pl.1 x := by
  intro items
  induction items with
  | nil =>
    intro P acc hacc pl hpl
    rw [byPlanAux] at hpl
    obtain ⟨h1, h2⟩ := hacc pl hpl
    exact ⟨h1, fun x hx => ⟨Or.inl (h2 x hx).1, (h2 x hx).2⟩⟩
  | cons it rest ih =>
    intro P acc hacc pl hpl
    rw [byPlanAux] at hpl
    cases hk : migKeep filter it with
    | none =>
      rw [hk] at hpl
      obtain ⟨h1, h2⟩ := ih P acc hacc pl hpl
      refine ⟨h1, fun x hx => ⟨?_, (h2 x hx).2⟩⟩
      rcases (h2 x hx).1 with h | h
      · exact Or.inl h
      · exact Or.inr (List.mem_cons_of_mem _ h)
    | some p =>
      rw [hk] at hpl
      have hcand : migCand filter p it := (migKeep_eq_some filter p it).mp hk
      have hacc' : ∀ pl' ∈ setdefApp acc p it,
          pl'.2 ≠ [] ∧ ∀ x ∈ pl'.2, (fun y => P y ∨ y = it) x ∧ migCand filter pl'.1 x := by
        intro pl' hpl'
        rcases setdefApp_elem acc p it pl' hpl' with hmem | ⟨hkey, l0, hl, hor⟩
        · obtain ⟨h1, h2⟩ := hacc pl' hmem
          exact ⟨h1, fun x hx => ⟨Or.inl (h2 x hx).1, (h2 x hx).2⟩⟩
        · constructor
          · rw [hl]; simp
          · intro x hx
            rw [hl] at hx
            rcases List.mem_append.mp hx with hx | hx
            · rcases hor with hor | hor
              · obtain ⟨-, h2⟩ := hacc (p, l0) hor
                refine ⟨Or.inl (h2 x hx).1, ?_⟩
                rw [hkey]
                exact (h2 x hx).2
              · rw [hor] at hx; simp at hx
            · rcases List.mem_singleton.mp hx with rfl
              exact ⟨Or.inr rfl, hkey ▸ hcand⟩
      have := ih (fun y => P y ∨ y = it) (setdefApp acc p it) hacc' pl hpl
      refine ⟨this.1, fun x hx => ⟨?_, (this.2 x hx).2⟩⟩
      rcases (this.2 x hx).1 with (h | h) | h
      · exact Or.inl h
      · exact Or.inr (h ▸ List.mem_cons_self ..)
      · exact Or.inr (List.mem_cons_of_mem _ h)

/-- Completeness of the grouping loop: every filter-surviving Migration record
of the processed items (and everything already grouped) ends up in the group
of its plan. -/
theorem byPlanAux_compl (filter : List String) :
    ∀ (items : List Item) (acc : List (String × List Item)) (p : String) (it0 : Item),
      ((it0 ∈ items ∧ migCand filter p it0) ∨ ∃ pl ∈ acc, pl.1 = p ∧ it0 ∈ pl.2) →
      ∃ pl ∈ byPlanAux filter items acc, pl.1 = p ∧ it0 ∈ pl.2 := by
  intro items
  induction items with
  | nil =>
    intro acc p it0 h
    rcases h with ⟨hmem, -⟩ | h
    · simp at hmem
    · rw [byPlanAux]; exact h
  | cons it rest ih =>
    intro acc p it0 h
    rw [byPlanAux]
    cases hk : migKeep filter it with
    | none =>
      apply ih acc p it0
      rcases h with ⟨hmem, hcand⟩ | h
      · rcases List.mem_cons.mp hmem with rfl | hmem
        · rw [(migKeep_eq_some filter p it0).mpr hcand] at hk
          simp at hk
        · exact Or.inl ⟨hmem, hcand⟩
      · exact Or.inr h
    | some q =>
      apply ih (setdefApp acc q it) p it0
      rcases h with ⟨hmem, hcand⟩ | ⟨pl0, hpl0, hkey, hx⟩
      · rcases List.mem_cons.mp hmem with rfl | hmem
        · have : q = p := by
            rw [(migKeep_eq_some filter p it0).mpr hcand] at hk
            exact (Option.some.injEq .. ▸ hk).symm
          subst this
          exact Or.inr (setdefApp_self acc q it0)
        · exact Or.inl ⟨hmem, hcand⟩
      · obtain ⟨pl, hpl, he, hsub⟩ := setdefApp_sub acc q it pl0 hpl0
        exact Or.inr ⟨pl, hpl, he.trans hkey, hsub it0 hx⟩

/-- In a key-distinct association list, entries with equal keys are equal. -/
theorem pairwise_key_unique :
    ∀ (g : List (String × List Item)),
      g.Pairwise (fun a b => a.1 ≠ b.1) →
      ∀ pl1 ∈ g, ∀ pl2 ∈ g, pl1.1 = pl2.1 → pl1 = pl2 := by
  intro g
  induction g with
  | nil => intro _ pl1 h1; simp at h1
  | cons a rest ih =>
    intro h pl1 h1 pl2 h2 he
    rcases h with - | ⟨ha, hrest⟩
    obtain he1 | h1m := List.mem_cons.mp h1
    · obtain he2 | h2m := List.mem_cons.mp h2
      · rw [he1, he2]
      · refine absurd ?_ (ha pl2 h2m)
        rw [← he1]
        exact he
    · obtain he2 | h2m := List.mem_cons.mp h2
      · refine absurd ?_ (ha pl1 h1m)
        rw [← he2]
        exact he.symm
      · exact ih hrest pl1 h1m pl2 h2m he

/-- `filterMap` carries a pairwise relation from the sources to the produced
values. -/
theorem pairwise_filterMap_rel {α β : Type} {Q : α → α → Prop} {R : β → β → Prop}
    (F : α → Option β) :
    ∀ g : List α, g.Pairwise Q →
      (∀ a b, Q a b → ∀ x, F a = some x → ∀ y, F b = some y → R x y) →
      (g.filterMap F).Pairwise R := by
  intro g
  induction g with
  | nil => intro _ _; simp
  | cons a rest ih =>
    intro h himp
    rcases h with - | ⟨ha, hrest⟩
    rw [List.filterMap_cons]
    cases hF : F a with
    | none => exact ih hrest himp
    | some x =>
      refine List.Pairwise.cons ?_ (ih hrest himp)
      intro y hy
      obtain ⟨b, hb, hFb⟩ := List.mem_filterMap.mp hy
      exact himp a b (ha b hb) x hF y hFb

/-- The per-plan latest list before the final plan-name sort (the `latest`
accumulator of `latest_migrations_by_plan`). -/
def latestRaw (items : List Item) (filter : List String) : List Item :=
  (byPlanAux filter items []).filterMap fun pl => (sortK tsKey pl.2).getLast?

/-- `latest_migrations_by_plan` is the plan-name sort of `latestRaw`. -/
theorem latest_migrations_eq (items : List Item) (filter : List String) :
    latest_migrations_by_plan items filter = sortK planKey (latestRaw items filter) := rfl

/-- The groups of the full grouping are key-distinct, non-empty, and hold
exactly the filter-surviving Migration records of their plan. -/
theorem byPlan_facts (items : List Item) (filter : List String) :
    (byPlanAux filter items []).Pairwise (fun a b => a.1 ≠ b.1)
  ∧ (∀ pl ∈ byPlanAux filter items [], pl.2 ≠ [] ∧
      ∀ x ∈ pl.2, x ∈ items ∧ migCand filter pl.1 x)
  ∧ (∀ (p : String) (it0 : Item), it0 ∈ items → migCand filter p it0 →
      ∃ pl ∈ byPlanAux filter items [], pl.1 = p ∧ it0 ∈ pl.2) := by
  refine ⟨byPlanAux_pairwise filter items [] List.Pairwise.nil, ?_, ?_⟩
  · intro pl hpl
    have h := byPlanAux_sound filter items (fun _ => False) [] (by simp) pl hpl
    refine ⟨h.1, fun x hx => ⟨?_, (h.2 x hx).2⟩⟩
    rcases (h.2 x hx).1 with hf | hm
    · exact hf.elim
    · exact hm
  · intro p it0 hm hc
    exact byPlanAux_compl filter items [] p it0 (Or.inl ⟨hm, hc⟩)

/-- A group representative (last of the timestamp-sorted group) is a member of
the group with the maximal timestamp key. -/
theorem latestRaw_rep (items : List Item) (filter : List String) :
    ∀ pl ∈ byPlanAux filter items [], ∀ m, (sortK tsKey pl.2).getLast? = some m →
      m ∈ pl.2 ∧ m ∈ items ∧ migCand filter pl.1 m ∧ ∀ y ∈ pl.2, tsKey y ≤ tsKey m := by
  intro pl hpl m hFm
  have hmem : m ∈ pl.2 :=
    (perm_sortK tsKey pl.2).mem_iff.mp (List.mem_of_getLast?_eq_some hFm)
  obtain ⟨-, hall⟩ := (byPlan_facts items filter).2.1 pl hpl
  refine ⟨hmem, (hall m hmem).1, (hall m hmem).2, ?_⟩
  intro y hy
  exact getLast_key_max tsKey (sortK tsKey pl.2) (sorted_sortK tsKey pl.2) m hFm y
    ((perm_sortK tsKey pl.2).mem_iff.mpr hy)

/-- Every member of `latestRaw` is a filter-surviving Migration record of the
input whose timestamp is maximal among its plan's records. -/
theorem latestRaw_sound (items : List Item) (filter : List String) :
    ∀ m ∈ latestRaw items filter,
      m ∈ items ∧ ∃ p, m.planName? = some p ∧ migCand filter p m ∧
        ∀ it, it ∈ items → migCand filter p it → tsKey it ≤ tsKey m := by
  intro m hm
  obtain ⟨pl, hpl, hFm⟩ := List.mem_filterMap.mp hm
  obtain ⟨hmem2, hmemI, hcand, hmax⟩ := latestRaw_rep items filter pl hpl m hFm
  refine ⟨hmemI, pl.1, hcand.2.1, hcand, ?_⟩
  intro it hit hcandit
  obtain ⟨pl', hpl', hkey', hin'⟩ := (byPlan_facts items filter).2.2 pl.1 it hit hcandit
  have heq : pl' = pl :=
    pairwise_key_unique (byPlanAux filter items []) (byPlan_facts items filter).1
      pl' hpl' pl hpl hkey'
  rw [heq] at hin'
  exact hmax it hin'

/-- Every plan with at least one filter-surviving Migration record has a
representative in `latestRaw`. -/
theorem latestRaw_exists (items : List Item) (filter : List String) :
    ∀ (p : String) (it0 : Item), it0 ∈ items → migCand filter p it0 →
      ∃ m ∈ latestRaw items filter, m.planName? = some p := by
  intro p it0 hm hc
  obtain ⟨pl, hpl, hkey, hin⟩ := (byPlan_facts items filter).2.2 p it0 hm hc
  have hne : sortK tsKey pl.2 ≠ [] := by
    intro hnil
    have hnil2 : pl.2 = [] := List.Perm.eq_nil (hnil ▸ (perm_sortK tsKey pl.2).symm)
    exact ((byPlan_facts items filter).2.1 pl hpl).1 hnil2
  obtain ⟨m, hFm⟩ := Option.isSome_iff_exists.mp (List.getLast?_isSome.mpr hne)
  have hmem : m ∈ latestRaw items filter := List.mem_filterMap.mpr ⟨pl, hpl, hFm⟩
  have hplan : m.planName? = some pl.1 :=
    (latestRaw_rep items filter pl hpl m hFm).2.2.1.2.1
  exact ⟨m, hmem, hkey ▸ hplan⟩

/-- The members of `latestRaw` have pairwise distinct plan references. -/
theorem latestRaw_pairwise (items : List Item) (filter : List String) :
    (latestRaw items filter).Pairwise (fun a b => a.planName? ≠ b.planName?) := by
  have hQ : (byPlanAux filter items []).Pairwise
      (fun a b => ∀ x, (sortK tsKey a.2).getLast? = some x →
        ∀ y, (sortK tsKey b.2).getLast? = some y → x.planName? ≠ y.planName?) := by
    refine List.Pairwise.imp_of_mem ?_ (byPlan_facts items filter).1
    intro a b hma hmb hne x hFx y hFy
    have hx := (latestRaw_rep items filter a hma x hFx).2.2.1.2.1
    have hy := (latestRaw_rep items filter b hmb y hFy).2.2.1.2.1
    rw [hx, hy]
    intro hcon
    exact hne (Option.some.injEq .. ▸ hcon)
  exact pairwise_filterMap_rel _ (byPlanAux filter items []) hQ
    (fun a b hab x hFx y hFy => hab x hFx y hFy)

/-- Claim C7 (confirmed): `latest_migrations_by_plan` returns exactly one
record per plan that has at least one filter-surviving Migration record
(records without a truthy plan reference and records outside a non-empty
filter are discarded), each returned record is one of its plan's records with
the lexicographically maximal creation-timestamp string, and the result is
sorted by plan name ascending. -/
theorem latest_migrations_by_plan_correct (items : List Item) (filter : List String) :
    (∀ p : String,
      (∃ it, it ∈ items ∧ migCand filter p it) ↔
      (∃ m, m ∈ latest_migrations_by_plan items filter ∧ m.planName? = some p))
  ∧ (latest_migrations_by_plan items filter).Pairwise
      (fun a b => a.planName? ≠ b.planName?)
  ∧ (∀ m, m ∈ latest_migrations_by_plan items filter →
      m ∈ items ∧ ∃ p, m.planName? = some p ∧ migCand filter p m ∧
        ∀ it, it ∈ items → migCand filter p it → tsKey it ≤ tsKey m)
  ∧ (latest_migrations_by_plan items filter).Pairwise
      (fun a b => planKey a ≤ planKey b) := by
  rw [latest_migrations_eq]
  have hperm := perm_sortK planKey (latestRaw items filter)
  refine ⟨?_, ?_, ?_, sorted_sortK planKey (latestRaw items filter)⟩
  · intro p
    constructor
    · rintro ⟨it0, hm, hc⟩
      obtain ⟨m, hm0, hp⟩ := latestRaw_exists items filter p it0 hm hc
      exact ⟨m, hperm.mem_iff.mpr hm0, hp⟩
    · rintro ⟨m, hm, hp⟩
      have hm0 := hperm.mem_iff.mp hm
      obtain ⟨hmemI, q, hq, hcand, -⟩ := latestRaw_sound items filter m hm0
      have hqp : q = p := by
        rw [hq] at hp
        exact Option.some.injEq .. ▸ hp
      exact ⟨m, hmemI, hqp ▸ hcand⟩
  · exact (hperm.pairwise_iff (fun h => h.symm)).mpr (latestRaw_pairwise items filter)
  · intro m hm
    exact latestRaw_sound items filter m (hperm.mem_iff.mp hm)

/-- An older Migration record of plan `p`. -/
def exC7a : Item :=
  ⟨"Migration", some "migA", some "2024-01-01T00:00:00Z", some "p", none, []⟩

/-- A newer Migration record of plan `p`. -/
def exC7b : Item :=
  ⟨"Migration", some "migB", some "2024-02-01T00:00:00Z", some "p", none, []⟩

/-- Witness for the C7 theorem: plan `p` has a record in the selection. -/
theorem latest_migrations_by_plan_correct_witness :
    ∃ m, m ∈ latest_migrations_by_plan [exC7a, exC7b] [] ∧ m.planName? = some "p" :=
  ((latest_migrations_by_plan_correct [exC7a, exC7b] []).1 "p").mp
    ⟨exC7a, List.mem_cons_self .., rfl, rfl, by decide, Or.inl rfl⟩
